import Mathlib

/-!
Verification of the `MinerV2` mining pipeline of `ore-cli` (src/miner_v2.rs),
shallowly embedded in Lean 4.  Machine integers are modelled as `Nat` with
explicit `% 2^w` where wraparound matters; byte arrays (Keccak digests,
public keys) are `List Nat` with each element `< 256`; the external Keccak
function `hashv` and all network (RPC) responses are uninterpreted
parameters / oracles, so each definition stays executable.  Loops that the
Rust code runs until an external event are embedded with explicit fuel:
`none` models "the loop has not returned within the given number of
iterations".
-/

/-- Upper bound of `u64` (`u64::MAX`). -/
def U64MAX : Nat := 2 ^ 64 - 1

/-- Little-endian byte encoding of a `u64` (`nonce.to_le_bytes()`): eight
bytes, least significant first. -/
def leBytes8 (n : Nat) : List Nat :=
  (List.range 8).map (fun i => n / 256 ^ i % 256)

/-- Value of a byte string read as a big-endian unsigned integer. -/
def beVal : List Nat → Nat
  | [] => 0
  | b :: bs => b * 256 ^ bs.length + beVal bs

/-- Well-formed byte string: every entry is a byte. -/
def BytesWF (l : List Nat) : Prop := ∀ x ∈ l, x < 256

instance (l : List Nat) : Decidable (BytesWF l) := by
  unfold BytesWF; infer_instance

/-- Lexicographic strict order on equal-length byte arrays: the `Ord`
instance Rust derives for `[u8; 32]` (used by `KeccakHash`'s `lt`/`gt`/`le`). -/
def byteLt : List Nat → List Nat → Bool
  | [], [] => false
  | [], _ :: _ => true
  | _ :: _, [] => false
  | a :: as_, b :: bs => if a < b then true else if b < a then false else byteLt as_ bs

/-- Rust's `a.le(&b)` for byte arrays: not `b < a`. -/
def byteLe (a b : List Nat) : Bool := !byteLt b a

/-- Rust's `a.gt(&b)` for byte arrays: `b < a`. -/
def byteGt (a b : List Nat) : Bool := byteLt b a

/-- The all-zero 32-byte digest, `KeccakHash::new_from_array([0; 32])`. -/
def zeroHash32 : List Nat := List.replicate 32 0

/-- MinerV2::validate_hash (src/miner_v2.rs:1212-1235): recompute
`hashv(current_hash ‖ signer ‖ nonce_le)` with the ambient Keccak function
`H`, compare with `hash` byte for byte (`sol_memcmp`), then require
`hash ≤ difficulty` in byte order (`!hash.gt(&difficulty)`). -/
def validate_hash (H : List (List Nat) → List Nat)
    (hash current_hash signer : List Nat) (nonce : Nat)
    (difficulty : List Nat) : Bool :=
  let hash_ := H [current_hash, signer, leBytes8 nonce]
  if hash ≠ hash_ then false
  else if byteGt hash difficulty then false
  else true

/-- Worker loop body of MinerV2::find_next_hash_par (src/miner_v2.rs:928-961).
`H` is the Keccak `hashv`; `stopped nonce` is the value the worker would read
from the shared `found_solution` flag at the checkpoint reached at `nonce`
(set only by sibling workers); `fuel` bounds the number of iterations we
unfold — `none` models "still searching" (or an early flag-triggered return).
Each iteration hashes `challenge ‖ pubkey ‖ nonce_le`, checks the flag every
10000 nonces, returns the pair on `next_hash ≤ difficulty`, else advances the
nonce by one (wrapping as `u64`). -/
def find_next_hash_worker (H : List (List Nat) → List Nat)
    (challenge pubkey difficulty : List Nat) (stopped : Nat → Bool) :
    Nat → Nat → Option (List Nat × Nat)
  | _, 0 => none
  | nonce, fuel + 1 =>
    let next_hash := H [challenge, pubkey, leBytes8 nonce]
    if nonce % 10000 == 0 && stopped nonce then none
    else if byteLe next_hash difficulty then some (next_hash, nonce)
    else find_next_hash_worker H challenge pubkey difficulty stopped
      ((nonce + 1) % 2 ^ 64) fuel

/-- Start nonce of worker `i` (src/miner_v2.rs:929):
`u64::MAX.saturating_div(threads).saturating_mul(i)`. -/
def nonceStart (threads i : Nat) : Nat := min (U64MAX / threads * i) U64MAX

/-- The writes performed into the shared `solution` mutex cell: one per
worker whose search returned within `fuel` iterations, in worker order. -/
def parWrites (H : List (List Nat) → List Nat)
    (challenge pubkey difficulty : List Nat) (threads : Nat)
    (stopped : Nat → Nat → Bool) (fuel : Nat) : List (List Nat × Nat) :=
  (List.range threads).filterMap
    (fun i => find_next_hash_worker H challenge pubkey difficulty (stopped i)
      (nonceStart threads i) fuel)

/-- MinerV2::find_next_hash_par (src/miner_v2.rs:910-972): spawn `threads`
workers over partitions of the nonce space, join them all, and return the
content of the `solution` cell — the last write if any worker wrote, else
the initial `(zero hash, 0)` the cell was created with. -/
def find_next_hash_par (H : List (List Nat) → List Nat)
    (challenge pubkey difficulty : List Nat) (threads : Nat)
    (stopped : Nat → Nat → Bool) (fuel : Nat) : List Nat × Nat :=
  (parWrites H challenge pubkey difficulty threads stopped fuel).getLast?.getD
    (zeroHash32, 0)

/-- On-chain bus account snapshot (ore::state::Bus): id and rewards. -/
structure Bus where
  id : Nat
  rewards : Nat
deriving DecidableEq, Repr

/-- Saturating `u64` multiplication, `reward_rate.saturating_mul(20)`. -/
def satMul20 (r : Nat) : Nat := min (r * 20) U64MAX

/-- MinerV2::find_next_bus_id (src/miner_v2.rs:1249-1258): loop forever,
each iteration probing bus id 0 via `get_bus`; `reads t i` is the outcome of
the `t`-th `get_bus(i)` call (`none` = RPC error).  Return the bus read as
soon as its `rewards` exceed `reward_rate.saturating_mul(20)`; `none` after
`fuel` iterations models the loop still spinning. -/
def find_next_bus_id (reads : Nat → Nat → Option Bus) (reward_rate : Nat) :
    Nat → Nat → Option Bus
  | _, 0 => none
  | t, fuel + 1 =>
    let bus_id := 0
    match reads t bus_id with
    | some bus =>
      if bus.rewards > satMul20 reward_rate then some bus
      else find_next_bus_id reads reward_rate (t + 1) fuel
    | none => find_next_bus_id reads reward_rate (t + 1) fuel

/-- TransactionConfirmationStatus of solana_transaction_status. -/
inductive TcStatus
  | processed
  | confirmed
  | finalized
deriving DecidableEq, Repr

/-- One entry of a `get_signature_statuses` response: the optional
confirmation status and whether the transaction-level `status` field is
`Ok` (`statusOk = true`) or `Err`. -/
structure SigStatus where
  confirmationStatus : Option TcStatus
  statusOk : Bool
deriving DecidableEq, Repr

/-- Scan of one status-response list by the polling loop of
MinerV2::send_and_confirm_transaction (src/miner_v2.rs:724-754): skip
missing statuses and `Processed`, and on the first `Confirmed`/`Finalized`
entry report `some statusOk` (the race terminates); `none` means no
terminal status was observed in this response. -/
def pollStep : List (Option SigStatus) → Option Bool
  | [] => none
  | none :: rest => pollStep rest
  | some s :: rest =>
    match s.confirmationStatus with
    | none => pollStep rest
    | some .processed => pollStep rest
    | some .confirmed => some s.statusOk
    | some .finalized => some s.statusOk

/-- Terminal decision of one polling iteration: `statusResp t` is the
`get_signature_statuses` answer of iteration `t` (`none` = RPC error,
which the loop only logs). -/
def stepTerminal (statusResp : Nat → Option (List (Option SigStatus)))
    (t : Nat) : Option Bool :=
  match statusResp t with
  | some l => pollStep l
  | none => none

/-- Terminal outcomes of the send-and-confirm engine's polling task. -/
inductive ConfirmOutcome
  | confirmedOk
  | txFailed
  | expired
deriving DecidableEq, Repr

/-- Polling task of MinerV2::send_and_confirm_transaction
(src/miner_v2.rs:700-776), one iteration per poll: check the signature
statuses first (`Confirmed`/`Finalized` with `Ok` ends the race
successfully, with `Err` ends it as failed, `Processed` never ends it),
then compare the polled block height against `last_valid_blockheight`
(strictly greater ends the race as expired), else sleep and repeat.
`none` after `fuel` iterations models a race still running. -/
def confirmLoop (statusResp : Nat → Option (List (Option SigStatus)))
    (height : Nat → Nat) (last_valid_blockheight : Nat) :
    Nat → Nat → Option ConfirmOutcome
  | _, 0 => none
  | t, fuel + 1 =>
    match stepTerminal statusResp t with
    | some true => some .confirmedOk
    | some false => some .txFailed
    | none =>
      if height t > last_valid_blockheight then some .expired
      else confirmLoop statusResp height last_valid_blockheight (t + 1) fuel

/-- Result of MinerV2::send_and_confirm_transaction as seen by its caller:
the polling task is the only writer of the result channel, and the engine
maps its outcome to `Ok(sig)`, `Err("Transaction Failed.")` or
`Err("Last valid blockheight exceeded!")` (src/miner_v2.rs:735-749,768-771,
814-821). -/
def send_and_confirm_transaction
    (statusResp : Nat → Option (List (Option SigStatus)))
    (height : Nat → Nat) (last_valid_blockheight : Nat) (fuel : Nat) :
    Option (Except String Unit) :=
  (confirmLoop statusResp height last_valid_blockheight 0 fuel).map
    (fun o =>
      match o with
      | .confirmedOk => .ok ()
      | .txFailed => .error "Transaction Failed."
      | .expired => .error "Last valid blockheight exceeded!")

/-- Scan of one status-response list by the polling loop of the
single-transaction helper MinerV2::send_and_confirm
(src/miner_v2.rs:1116-1132): on the first `Confirmed`/`Finalized` entry the
race ends successfully WITHOUT inspecting the transaction-level `status`
field; `Processed` and missing statuses are skipped. -/
def pollStepV1 : List (Option SigStatus) → Bool
  | [] => false
  | none :: rest => pollStepV1 rest
  | some s :: rest =>
    match s.confirmationStatus with
    | none => pollStepV1 rest
    | some .processed => pollStepV1 rest
    | some .confirmed => true
    | some .finalized => true

/-- Terminal outcomes of the helper's polling task. -/
inductive SacOutcome
  | landed
  | expired
deriving DecidableEq, Repr

/-- Polling task of MinerV2::send_and_confirm (src/miner_v2.rs:1092-1152):
like `confirmLoop` but any `Confirmed`/`Finalized` status ends the race as
`landed` regardless of the transaction outcome. -/
def sacConfirmLoop (statusResp : Nat → Option (List (Option SigStatus)))
    (height : Nat → Nat) (last_valid_blockheight : Nat) :
    Nat → Nat → Option SacOutcome
  | _, 0 => none
  | t, fuel + 1 =>
    let landed :=
      match statusResp t with
      | some l => pollStepV1 l
      | none => false
    if landed then some .landed
    else if height t > last_valid_blockheight then some .expired
    else sacConfirmLoop statusResp height last_valid_blockheight (t + 1) fuel

/-- Result of the race inside MinerV2::send_and_confirm as seen by its
caller: `Ok(sig)` on `landed`, and any error from the polling task is
mapped to `Err("Blockheight exceeded")` (src/miner_v2.rs:1193-1204). -/
def send_and_confirm_race
    (statusResp : Nat → Option (List (Option SigStatus)))
    (height : Nat → Nat) (last_valid_blockheight : Nat) (fuel : Nat) :
    Option (Except String Unit) :=
  (sacConfirmLoop statusResp height last_valid_blockheight 0 fuel).map
    (fun o =>
      match o with
      | .landed => .ok ()
      | .expired => .error "Blockheight exceeded")

/-- Payload of one `simulate_transaction_with_config` response value:
whether `value.err` is set, and the optional `value.units_consumed`. -/
structure SimValue where
  err : Bool
  unitsConsumed : Option Nat
deriving DecidableEq, Repr

/-- SIMULATION_RETRIES (src/miner_v2.rs:38). -/
def SIMULATION_RETRIES : Nat := 4

/-- Outcome of the simulation retry loop. -/
inductive SimOutcome
  | proceed (units : Nat)
  | simFailed
deriving DecidableEq, Repr

/-- Whether simulation call `t` counts as a failed attempt: an RPC error, or
an `Ok` response whose `value.err` is set (src/miner_v2.rs:1027-1029,
1046-1049). -/
def simFails (sim : Nat → Option SimValue) (t : Nat) : Bool :=
  match sim t with
  | none => true
  | some v => v.err

/-- Whether simulation call `t` exits the loop: an `Ok` response with no
error and a `units_consumed` value (src/miner_v2.rs:1030-1043). -/
def simExits (sim : Nat → Option SimValue) (t : Nat) : Option Nat :=
  match sim t with
  | none => none
  | some v => if v.err then none else v.unitsConsumed

/-- Number of failed simulation attempts among calls `t, …, t+k-1`. -/
def simFailCount (sim : Nat → Option SimValue) (t : Nat) : Nat → Nat
  | 0 => 0
  | k + 1 => (if simFails sim t then 1 else 0) + simFailCount sim (t + 1) k

/-- Simulation retry loop of MinerV2::send_and_confirm
(src/miner_v2.rs:1009-1060).  `sim t` is the outcome of the `t`-th
`simulate_transaction_with_config` call; `attempts` is `sim_attempts`.
A response with `value.err` set, or an RPC error, increments `attempts`;
a clean response carrying `units_consumed` breaks out of the loop
(`proceed`); a clean response without `units_consumed` neither breaks nor
counts.  At the bottom of every non-breaking iteration the loop returns
`Err("Sim failed")` when `attempts > SIMULATION_RETRIES`.  `none` after
`fuel` iterations models the loop still spinning. -/
def simLoop (sim : Nat → Option SimValue) : Nat → Nat → Nat → Option SimOutcome
  | _, _, 0 => none
  | t, attempts, fuel + 1 =>
    match simExits sim t with
    | some u => some (.proceed u)
    | none =>
      let attempts' := if simFails sim t then attempts + 1 else attempts
      if attempts' > SIMULATION_RETRIES then some .simFailed
      else simLoop sim (t + 1) attempts' fuel

/-- TransactionResultMessage (src/miner_v2.rs:52-58). -/
structure TransactionResultMessage where
  wallets : List String
  sig : String
  tx_time_elapsed : Nat
  hash_time_elapsed : Nat
  failed : Bool

/-- Running statistics held by the tx-results task (src/miner_v2.rs:437-439). -/
structure RouterState where
  tx_times : List Nat
  hash_times : List Nat
  total_times : List Nat

/-- One iteration of the tx-results task of MinerV2::mine
(src/miner_v2.rs:443-476): on a non-failed result append the timings to the
running statistics (a failed result only logs), then send every wallet of
the message back onto the wallet queue, one send per listed wallet, in
order.  Returns the new statistics and the list of enqueued wallet
strings. -/
def routeResult (st : RouterState) (m : TransactionResultMessage) :
    RouterState × List String :=
  let st' :=
    if m.failed then st
    else
      { tx_times := st.tx_times ++ [m.tx_time_elapsed]
        hash_times := st.hash_times ++ [m.hash_time_elapsed]
        total_times := st.total_times ++ [m.tx_time_elapsed + m.hash_time_elapsed] }
  (st', m.wallets)

/-- Clamp applied to the configured batch size by the batch-builder task
(src/miner_v2.rs:207): `if batch_size > 5 { 5 } else { batch_size }`. -/
def effective_batch_size (batch_size : Nat) : Nat :=
  if batch_size > 5 then 5 else batch_size

/-- One collecting iteration of the batch-builder task
(src/miner_v2.rs:208-215,338): append the received wallet to the batch;
when the batch length equals the (already clamped) batch size the batch is
consumed (handed to the hashing/building phase) and reset to empty,
otherwise it is retained.  Returns the retained batch and the consumed
batch, if any. -/
def batchStep (batch_size : Nat) (batch : List String) (wallet : String) :
    List String × Option (List String) :=
  let batch' := batch ++ [wallet]
  if batch'.length = batch_size then ([], some batch') else (batch', none)

/-- Fold of the collecting loop over a stream of wallet messages, from the
given accumulated batch: returns the final pending batch and the consumed
batches in order. -/
def batchRun (batch_size : Nat) (batch : List String) :
    List String → List String × List (List String)
  | [] => (batch, [])
  | w :: ws =>
    match batchStep batch_size batch w with
    | (b', none) => batchRun batch_size b' ws
    | (_, some full) =>
      let (pend, outs) := batchRun batch_size [] ws
      (pend, full :: outs)

/-- Instructions appearing in the batch transaction, as built at
src/miner_v2.rs:290-316: the two compute-budget instructions and the ore
mine instruction (signer public key, bus address index, solution hash,
nonce). -/
inductive Ix
  | computeUnitLimit (limit : Nat)
  | computeUnitPrice (price : Nat)
  | mine (signer : List Nat) (bus_id : Nat) (next_hash : List Nat) (nonce : Nat)
deriving DecidableEq, Repr

/-- TransactionQueueMessage (src/miner_v2.rs:46-50), with the serialized
unsigned transaction carried as its instruction list (base64/bincode
serialization abstracted away). -/
structure TransactionQueueMessage where
  wallets : List String
  tx_ixs : List Ix
  hash_time_elapsed : Nat

/-- Building step of the batch-builder task (src/miner_v2.rs:289-330).
`cu_limit_mine` stands for the constant `CU_LIMIT_MINE` imported from
crate::cu_limits (that module is not part of the analysed sources, so the
constant is a parameter); `pubkeyOf` maps a serialized keypair to its
public key (`Keypair::from_base58_string(...).pubkey()`, external);
`solved` is `keys_bytes_with_hashes`, one `(wallet, next_hash, nonce)`
triple per wallet of the batch in batch order.  The instruction list is the
compute-unit-limit instruction at `CU_LIMIT_MINE * wallet_count` (`u32`
arithmetic), the compute-unit-price instruction at the configured priority
fee, then one mine instruction per wallet; the queued message carries the
original batch as its wallets. -/
def buildMineTx (cu_limit_mine priority_fee bus_id : Nat)
    (pubkeyOf : String → List Nat)
    (solved : List (String × List Nat × Nat)) (hash_time : Nat) :
    TransactionQueueMessage :=
  let wallet_count := solved.length
  let cu_limit_ix := Ix.computeUnitLimit (cu_limit_mine * wallet_count % 2 ^ 32)
  let cu_price_ix := Ix.computeUnitPrice priority_fee
  let mine_ixs := solved.map
    (fun s => Ix.mine (pubkeyOf s.1) bus_id s.2.1 s.2.2)
  { wallets := solved.map (fun s => s.1)
    tx_ixs := cu_limit_ix :: cu_price_ix :: mine_ixs
    hash_time_elapsed := hash_time }

/-- Hashing phase of the batch-builder task (src/miner_v2.rs:221-253):
one `(wallet, next_hash, nonce)` entry is pushed per wallet of the batch,
in batch order; `solve` abstracts the per-wallet registration, proof fetch
and `find_next_hash_par` call. -/
def hashPhase (solve : String → List Nat × Nat) (batch : List String) :
    List (String × List Nat × Nat) :=
  batch.map (fun w => (w, (solve w).1, (solve w).2))

lemma beVal_lt_pow {bs : List Nat} (h : BytesWF bs) : beVal bs < 256 ^ bs.length := by
  induction bs with
  | nil => simp [beVal]
  | cons b bs ih =>
    have hb : b < 256 := h b (List.mem_cons_self _ _)
    have hbs : BytesWF bs := fun x hx => h x (List.mem_cons_of_mem _ hx)
    have hlt := ih hbs
    have hstep : (b + 1) * 256 ^ bs.length ≤ 256 * 256 ^ bs.length :=
      Nat.mul_le_mul_right _ hb
    simp only [beVal, List.length_cons, pow_succ]
    calc b * 256 ^ bs.length + beVal bs
        < (b + 1) * 256 ^ bs.length := by nlinarith
      _ ≤ 256 * 256 ^ bs.length := hstep
      _ = 256 ^ bs.length * 256 := by ring

lemma byteLt_iff_beVal : ∀ {a b : List Nat}, a.length = b.length →
    BytesWF a → BytesWF b → (byteLt a b = true ↔ beVal a < beVal b) := by
  intro a
  induction a with
  | nil =>
    intro b hlen _ _
    cases b with
    | nil => simp [byteLt, beVal]
    | cons y bs => simp at hlen
  | cons x as_ ih =>
    intro b hlen ha hb
    cases b with
    | nil => simp at hlen
    | cons y bs =>
      have hlen' : as_.length = bs.length := by simpa using hlen
      have hxa : BytesWF as_ := fun z hz => ha z (List.mem_cons_of_mem _ hz)
      have hyb : BytesWF bs := fun z hz => hb z (List.mem_cons_of_mem _ hz)
      have hpa : beVal as_ < 256 ^ as_.length := beVal_lt_pow hxa
      have hpb : beVal bs < 256 ^ bs.length := beVal_lt_pow hyb
      rcases lt_trichotomy x y with hxy | hxy | hxy
      · have hbe : beVal (x :: as_) < beVal (y :: bs) := by
          simp only [beVal]
          have h1 : x * 256 ^ as_.length + beVal as_ < (x + 1) * 256 ^ as_.length := by
            nlinarith
          have h2 : (x + 1) * 256 ^ as_.length ≤ y * 256 ^ bs.length := by
            rw [hlen']
            exact Nat.mul_le_mul_right _ hxy
          omega
        simp [byteLt, hxy, hbe]
      · subst hxy
        have : byteLt (x :: as_) (x :: bs) = byteLt as_ bs := by
          simp [byteLt]
        rw [this, ih hlen' hxa hyb]
        simp only [beVal, hlen']
        omega
      · have hbe : beVal (y :: bs) < beVal (x :: as_) := by
          simp only [beVal]
          have h1 : y * 256 ^ bs.length + beVal bs < (y + 1) * 256 ^ bs.length := by
            nlinarith
          have h2 : (y + 1) * 256 ^ bs.length ≤ x * 256 ^ as_.length := by
            rw [← hlen']
            exact Nat.mul_le_mul_right _ hxy
          omega
        have hlt : byteLt (x :: as_) (y :: bs) = false := by
          simp [byteLt, Nat.lt_asymm hxy, hxy]
        rw [hlt]
        constructor
        · intro h; cases h
        · intro h; omega

lemma byteLe_beVal {a b : List Nat} (hlen : a.length = b.length)
    (ha : BytesWF a) (hb : BytesWF b) (h : byteLe a b = true) :
    beVal a ≤ beVal b := by
  have hbf : byteLt b a = false := by
    simpa [byteLe] using h
  have : ¬ beVal b < beVal a := by
    rw [← byteLt_iff_beVal hlen.symm hb ha]
    simp [hbf]
  omega

lemma find_next_hash_worker_sound (H : List (List Nat) → List Nat)
    (challenge pubkey difficulty : List Nat) (stopped : Nat → Bool) :
    ∀ fuel nonce h n,
      find_next_hash_worker H challenge pubkey difficulty stopped nonce fuel
        = some (h, n) →
      h = H [challenge, pubkey, leBytes8 n] ∧ byteLe h difficulty = true := by
  intro fuel
  induction fuel with
  | zero =>
    intro nonce h n hcontra
    simp [find_next_hash_worker] at hcontra
  | succ f ih =>
    intro nonce h n heq
    rw [find_next_hash_worker] at heq
    by_cases hstop : (nonce % 10000 == 0 && stopped nonce) = true
    · simp [hstop] at heq
    · rw [Bool.not_eq_true] at hstop
      simp only [hstop, Bool.false_eq_true, if_false] at heq
      by_cases hle : byteLe (H [challenge, pubkey, leBytes8 nonce]) difficulty = true
      · simp only [hle, if_true, Option.some.injEq, Prod.mk.injEq] at heq
        obtain ⟨h1, h2⟩ := heq
        subst h1; subst h2
        exact ⟨rfl, hle⟩
      · rw [Bool.not_eq_true] at hle
        simp only [hle, Bool.false_eq_true, if_false] at heq
        exact ih _ _ _ heq

lemma validate_hash_of_found (H : List (List Nat) → List Nat)
    (challenge pubkey difficulty : List Nat) (n : Nat) (h : List Nat)
    (hh : h = H [challenge, pubkey, leBytes8 n])
    (hle : byteLe h difficulty = true) :
    validate_hash H h challenge pubkey n difficulty = true := by
  have hgt : byteGt h difficulty = false := by
    simpa [byteLe, byteGt] using hle
  subst hh
  simp [validate_hash, hgt]

/-- C1: for every challenge hash, difficulty, identity and thread count ≥ 1,
whenever `find_next_hash_par` actually returns — i.e. some worker wrote the
shared solution cell, which is exactly how the joined call can terminate
with at least one searching thread — the returned pair `(hash, nonce)`
satisfies `hash = H(challenge ‖ pubkey ‖ nonce_le)`, its big-endian value is
at most the difficulty's, and `validate_hash` accepts it. -/
theorem c1_find_next_hash_par_validates
    (H : List (List Nat) → List Nat) (challenge pubkey difficulty : List Nat)
    (threads : Nat) (stopped : Nat → Nat → Bool) (fuel : Nat)
    (hT : 1 ≤ threads)
    (hH : ∀ xs, BytesWF (H xs) ∧ (H xs).length = 32)
    (hd : BytesWF difficulty) (hdlen : difficulty.length = 32)
    (hret : parWrites H challenge pubkey difficulty threads stopped fuel ≠ []) :
    (find_next_hash_par H challenge pubkey difficulty threads stopped fuel).1
      = H [challenge, pubkey,
            leBytes8 (find_next_hash_par H challenge pubkey difficulty threads
              stopped fuel).2] ∧
    beVal (find_next_hash_par H challenge pubkey difficulty threads stopped
      fuel).1 ≤ beVal difficulty ∧
    validate_hash H
      (find_next_hash_par H challenge pubkey difficulty threads stopped fuel).1
      challenge pubkey
      (find_next_hash_par H challenge pubkey difficulty threads stopped fuel).2
      difficulty = true := by
  have hlast := List.getLast?_eq_getLast _ hret
  set w := (parWrites H challenge pubkey difficulty threads stopped
    fuel).getLast hret with hwdef
  have hfp : find_next_hash_par H challenge pubkey difficulty threads stopped
      fuel = w := by
    simp [find_next_hash_par, hlast]
  have hmem : w ∈ parWrites H challenge pubkey difficulty threads stopped
      fuel := List.getLast_mem hret
  have hex : ∃ a, a < threads ∧ find_next_hash_worker H challenge pubkey
      difficulty (stopped a) (nonceStart threads a) fuel = some w := by
    simpa [parWrites, List.mem_filterMap] using hmem
  obtain ⟨i, -, hi⟩ := hex
  obtain ⟨hhash, hle⟩ := find_next_hash_worker_sound H challenge pubkey
    difficulty (stopped i) fuel (nonceStart threads i) w.1 w.2 hi
  rw [hfp]
  refine ⟨hhash, ?_, ?_⟩
  · have hlen : w.1.length = difficulty.length := by
      rw [hhash, (hH _).2, hdlen]
    exact byteLe_beVal hlen (by rw [hhash]; exact (hH _).1) hd hle
  · exact validate_hash_of_found H challenge pubkey difficulty w.2 w.1 hhash hle

/-- A constant stand-in for the external Keccak function whose output is the
all-zero digest, used to instantiate witnesses. -/
def Hzero : List (List Nat) → List Nat := fun _ => List.replicate 32 0

/-- A constant stand-in for the external Keccak function whose output is the
all-one digest, used to instantiate witnesses. -/
def Hone : List (List Nat) → List Nat := fun _ => List.replicate 32 1

lemma Hzero_wf : ∀ xs, BytesWF (Hzero xs) ∧ (Hzero xs).length = 32 := by
  intro xs
  constructor
  · show BytesWF (List.replicate 32 0)
    decide
  · show (List.replicate 32 0 : List Nat).length = 32
    decide

/-- Witness for C1: with a single thread, a Keccak stand-in that returns the
zero digest and the zero difficulty, the search writes at nonce 0 and the
returned pair passes `validate_hash`. -/
theorem c1_witness :
    validate_hash Hzero
      (find_next_hash_par Hzero zeroHash32 zeroHash32 zeroHash32 1
        (fun _ _ => false) 1).1
      zeroHash32 zeroHash32
      (find_next_hash_par Hzero zeroHash32 zeroHash32 zeroHash32 1
        (fun _ _ => false) 1).2
      zeroHash32 = true :=
  (c1_find_next_hash_par_validates Hzero zeroHash32 zeroHash32 zeroHash32 1
    (fun _ _ => false) 1 (by decide)
    Hzero_wf (by decide) (by decide) (by decide)).2.2

lemma find_next_hash_worker_interval (H : List (List Nat) → List Nat)
    (challenge pubkey difficulty : List Nat) (stopped : Nat → Bool) :
    ∀ fuel start h n', start + fuel ≤ 2 ^ 64 →
      find_next_hash_worker H challenge pubkey difficulty stopped start fuel
        = some (h, n') →
      start ≤ n' ∧ n' < start + fuel ∧
      ∀ m, start ≤ m → m < n' →
        byteLe (H [challenge, pubkey, leBytes8 m]) difficulty = false := by
  intro fuel
  induction fuel with
  | zero =>
    intro start h n' _ hc
    simp [find_next_hash_worker] at hc
  | succ f ih =>
    intro start h n' hbound heq
    rw [find_next_hash_worker] at heq
    by_cases hstop : (start % 10000 == 0 && stopped start) = true
    · simp [hstop] at heq
    · rw [Bool.not_eq_true] at hstop
      simp only [hstop, Bool.false_eq_true, if_false] at heq
      by_cases hle : byteLe (H [challenge, pubkey, leBytes8 start]) difficulty
          = true
      · simp only [hle, if_true, Option.some.injEq, Prod.mk.injEq] at heq
        obtain ⟨-, h2⟩ := heq
        subst h2
        exact ⟨le_refl _, by omega, fun m hm1 hm2 => absurd hm2 (by omega)⟩
      · rw [Bool.not_eq_true] at hle
        simp only [hle, Bool.false_eq_true, if_false] at heq
        cases f with
        | zero => simp [find_next_hash_worker] at heq
        | succ f' =>
          have hmod : (start + 1) % 2 ^ 64 = start + 1 :=
            Nat.mod_eq_of_lt (by omega)
          rw [hmod] at heq
          obtain ⟨ha, hb, hc⟩ := ih (start + 1) h n' (by omega) heq
          refine ⟨by omega, by omega, fun m hm1 hm2 => ?_⟩
          rcases eq_or_lt_of_le hm1 with hq | hq
          · rw [← hq]; exact hle
          · exact hc m hq hm2

/-- C9: for every thread count `T ≥ 1` and worker index `i < T`, the worker's
start nonce is exactly `i * (u64::MAX / T)` — the saturating division and
multiplication never actually saturate — and within a wrap-free window the
worker advances the nonce by exactly one each iteration: a returned solution
nonce lies inside the worker's scanned interval and every smaller nonce from
the start of the range was examined and failed the difficulty test (no nonce
is skipped). -/
theorem c9_worker_start_and_stride (T i : Nat) (hT : 1 ≤ T) (hi : i < T)
    (H : List (List Nat) → List Nat) (challenge pubkey difficulty : List Nat)
    (stopped : Nat → Bool) (fuel : Nat) (h : List Nat) (n' : Nat)
    (hrun : find_next_hash_worker H challenge pubkey difficulty stopped
      (nonceStart T i) fuel = some (h, n'))
    (hnw : nonceStart T i + fuel ≤ 2 ^ 64) :
    nonceStart T i = i * (U64MAX / T) ∧
    nonceStart T i ≤ n' ∧ n' < nonceStart T i + fuel ∧
    ∀ m, nonceStart T i ≤ m → m < n' →
      byteLe (H [challenge, pubkey, leBytes8 m]) difficulty = false := by
  have hns : nonceStart T i = i * (U64MAX / T) := by
    have h1 : U64MAX / T * i ≤ U64MAX / T * T :=
      Nat.mul_le_mul_left _ (le_of_lt hi)
    have h2 : U64MAX / T * T ≤ U64MAX := Nat.div_mul_le_self _ _
    rw [nonceStart, Nat.min_eq_left (le_trans h1 h2), Nat.mul_comm]
  obtain ⟨ha, hb, hc⟩ := find_next_hash_worker_interval H challenge pubkey
    difficulty stopped fuel (nonceStart T i) h n' hnw hrun
  exact ⟨hns, ha, hb, hc⟩

/-- Witness for C9: one thread, worker 0, fuel 1, constant zero Keccak and
zero difficulty: the worker starts at nonce `0 * (u64::MAX / 1)` and its
first examined nonce already solves the puzzle. -/
theorem c9_witness :
    nonceStart 1 0 = 0 * (U64MAX / 1) ∧
    nonceStart 1 0 ≤ 0 ∧ 0 < nonceStart 1 0 + 1 ∧
    ∀ m, nonceStart 1 0 ≤ m → m < 0 →
      byteLe (Hzero [zeroHash32, zeroHash32, leBytes8 m]) zeroHash32 = false :=
  c9_worker_start_and_stride 1 0 (by decide) (by decide) Hzero zeroHash32
    zeroHash32 zeroHash32 (fun _ => false) 1 (List.replicate 32 0) 0
    (by decide) (by decide)

/-- C10: with a thread count of 0, `find_next_hash_par` spawns no workers and
returns the initial contents of the solution cell — the all-zero 32-byte
digest paired with nonce 0 — for every challenge, identity, difficulty, flag
history and fuel; the function reports no error, even though such a pair in
general fails `validate_hash` (shown here at a concrete instance where the
recomputed digest differs from the all-zero hash). -/
theorem c10_zero_threads_returns_initial_cell :
    (∀ (H : List (List Nat) → List Nat)
      (challenge pubkey difficulty : List Nat)
      (stopped : Nat → Nat → Bool) (fuel : Nat),
      find_next_hash_par H challenge pubkey difficulty 0 stopped fuel
        = (zeroHash32, 0)) ∧
    validate_hash Hone zeroHash32 zeroHash32 zeroHash32 0
      (List.replicate 32 255) = false := by
  constructor
  · intro H challenge pubkey difficulty stopped fuel
    simp [find_next_hash_par, parWrites]
  · decide

/-- C7: for every reward rate, whenever the batch path's bus selection
returns a bus, that bus came from a read probing bus id 0 and its rewards
strictly exceed `reward_rate.saturating_mul(20)`; and whenever no read of
bus id 0 ever yields qualifying rewards, the selection never returns, at
any fuel. -/
theorem c7_find_next_bus_id_qualifies (reads : Nat → Nat → Option Bus)
    (reward_rate : Nat) :
    (∀ t fuel bus, find_next_bus_id reads reward_rate t fuel = some bus →
      bus.rewards > satMul20 reward_rate ∧ ∃ k, t ≤ k ∧ reads k 0 = some bus) ∧
    ((∀ k b, reads k 0 = some b → b.rewards ≤ satMul20 reward_rate) →
      ∀ t fuel, find_next_bus_id reads reward_rate t fuel = none) := by
  constructor
  · intro t fuel
    induction fuel generalizing t with
    | zero =>
      intro bus hc
      simp [find_next_bus_id] at hc
    | succ f ih =>
      intro bus heq
      rw [find_next_bus_id] at heq
      cases hr : reads t 0 with
      | some b =>
        rw [hr] at heq
        by_cases hq : b.rewards > satMul20 reward_rate
        · simp only [hq, if_true, Option.some.injEq] at heq
          subst heq
          exact ⟨hq, t, le_refl _, hr⟩
        · simp only [hq, if_false] at heq
          obtain ⟨hq', k, hk, hrk⟩ := ih (t + 1) bus heq
          exact ⟨hq', k, by omega, hrk⟩
      | none =>
        rw [hr] at heq
        obtain ⟨hq', k, hk, hrk⟩ := ih (t + 1) bus heq
        exact ⟨hq', k, by omega, hrk⟩
  · intro hnone t fuel
    induction fuel generalizing t with
    | zero => rfl
    | succ f ih =>
      rw [find_next_bus_id]
      cases hr : reads t 0 with
      | some b =>
        have := hnone t b hr
        simp only [show ¬ b.rewards > satMul20 reward_rate by omega, if_false]
        exact ih (t + 1)
      | none => exact ih (t + 1)

/-- Bus-read oracle used by the C7 witness: the first probe of bus id 0
answers a bus with 100 rewards, every other probe errors. -/
def busReads0 : Nat → Nat → Option Bus :=
  fun t i => if t = 0 ∧ i = 0 then some ⟨0, 100⟩ else none

/-- Witness for C7: with reward rate 1 the first read of bus 0 holds 100
rewards, which exceeds `1 * 20`, so the selection returns that bus. -/
theorem c7_witness :
    (Bus.mk 0 100).rewards > satMul20 1 ∧
    ∃ k, 0 ≤ k ∧ busReads0 k 0 = some (Bus.mk 0 100) :=
  (c7_find_next_bus_id_qualifies busReads0 1).1 0 1 (Bus.mk 0 100) (by decide)

/-- C3: each iteration of the tx-results task re-enqueues exactly the
wallets listed in the received `TransactionResultMessage`, in order,
whatever the `failed` flag is: the emitted wallet-queue entries are the
message's `wallets` list itself (so every listed wallet string is enqueued
byte-for-byte identically, once per listed occurrence, and no other wallet
is enqueued). -/
theorem c3_router_requeues_message_wallets :
    ∀ (st : RouterState) (m : TransactionResultMessage),
      (routeResult st m).2 = m.wallets ∧
      ∀ w, ((routeResult st m).2.count w) = m.wallets.count w :=
  fun _ _ => ⟨rfl, fun _ => rfl⟩

/-- C6: the batch orchestrator's effective batch size is the configured one
clamped to at most 5, and one collecting step consumes the accumulated
batch exactly when its new length equals that clamped size, otherwise it
retains the grown batch unchanged. -/
theorem c6_batch_clamp_and_transition :
    ∀ (batch_size : Nat) (batch : List String) (w : String),
      effective_batch_size batch_size
        = (if batch_size ≤ 5 then batch_size else 5) ∧
      (batchStep (effective_batch_size batch_size) batch w).2
        = (if batch.length + 1 = effective_batch_size batch_size
            then some (batch ++ [w]) else none) ∧
      (batchStep (effective_batch_size batch_size) batch w).1
        = (if batch.length + 1 = effective_batch_size batch_size
            then [] else batch ++ [w]) := by
  intro bs batch w
  refine ⟨?_, ?_, ?_⟩
  · by_cases h : bs ≤ 5
    · simp [effective_batch_size, h, Nat.not_lt.mpr h]
    · simp [effective_batch_size, h, Nat.lt_of_not_le h]
  · by_cases h : batch.length + 1 = effective_batch_size bs
    · simp [batchStep, h]
    · simp only [batchStep, List.length_append, List.length_cons,
        List.length_nil, Nat.zero_add]
      rw [if_neg h, if_neg h]
  · by_cases h : batch.length + 1 = effective_batch_size bs
    · simp [batchStep, h]
    · simp only [batchStep, List.length_append, List.length_cons,
        List.length_nil, Nat.zero_add]
      rw [if_neg h, if_neg h]

/-- C5: for a batch that reaches the building step, the built transaction's
instruction list is exactly the compute-unit-limit instruction at
`CU_LIMIT_MINE * N` (no `u32` wrap under the stated bound), then the
compute-unit-price instruction at the configured priority fee, then one
mine instruction per wallet in batch order (carrying that wallet's public
key, the chosen bus and its solution); in total `2 + N` instructions, and
the queued message's wallet list is the batch itself, of length `N`. -/
theorem c5_built_tx_instruction_shape (cu_limit_mine priority_fee bus_id : Nat)
    (pubkeyOf : String → List Nat) (solve : String → List Nat × Nat)
    (batch : List String) (hash_time : Nat)
    (hcu : cu_limit_mine * batch.length < 2 ^ 32) :
    (buildMineTx cu_limit_mine priority_fee bus_id pubkeyOf
      (hashPhase solve batch) hash_time).tx_ixs.length = 2 + batch.length ∧
    (buildMineTx cu_limit_mine priority_fee bus_id pubkeyOf
      (hashPhase solve batch) hash_time).tx_ixs.head?
      = some (.computeUnitLimit (cu_limit_mine * batch.length)) ∧
    (buildMineTx cu_limit_mine priority_fee bus_id pubkeyOf
      (hashPhase solve batch) hash_time).tx_ixs[1]?
      = some (.computeUnitPrice priority_fee) ∧
    (∀ k wk, batch[k]? = some wk →
      (buildMineTx cu_limit_mine priority_fee bus_id pubkeyOf
        (hashPhase solve batch) hash_time).tx_ixs[k + 2]?
        = some (.mine (pubkeyOf wk) bus_id (solve wk).1 (solve wk).2)) ∧
    (buildMineTx cu_limit_mine priority_fee bus_id pubkeyOf
      (hashPhase solve batch) hash_time).wallets = batch ∧
    (buildMineTx cu_limit_mine priority_fee bus_id pubkeyOf
      (hashPhase solve batch) hash_time).wallets.length = batch.length := by
  have hlen : (hashPhase solve batch).length = batch.length := by
    simp [hashPhase]
  have hcu' : cu_limit_mine * batch.length < 4294967296 := by
    simpa using hcu
  have hwal : (buildMineTx cu_limit_mine priority_fee bus_id pubkeyOf
      (hashPhase solve batch) hash_time).wallets = batch := by
    simp only [buildMineTx, hashPhase, List.map_map]
    exact List.map_id' batch
  refine ⟨?_, ?_, ?_, ?_, hwal, by rw [hwal]⟩
  · simp [buildMineTx, hashPhase]
    omega
  · simp [buildMineTx, hlen, Nat.mod_eq_of_lt hcu']
  · simp [buildMineTx]
  · intro k wk hk
    simp [buildMineTx, hashPhase, List.getElem?_map, hk]

/-- Witness for C5: a one-wallet batch with `CU_LIMIT_MINE = 3200` yields
three instructions, the third being the wallet's mine instruction. -/
theorem c5_witness :
    (buildMineTx 3200 7 0 (fun _ => [1])
      (hashPhase (fun _ => ([2], 3)) ["w1"]) 5).tx_ixs.length
      = 2 + (["w1"] : List String).length ∧
    (buildMineTx 3200 7 0 (fun _ => [1])
      (hashPhase (fun _ => ([2], 3)) ["w1"]) 5).tx_ixs[0 + 2]?
      = some (Ix.mine [1] 0 [2] 3) :=
  ⟨(c5_built_tx_instruction_shape 3200 7 0 (fun _ => [1]) (fun _ => ([2], 3))
      ["w1"] 5 (by decide)).1,
    (c5_built_tx_instruction_shape 3200 7 0 (fun _ => [1]) (fun _ => ([2], 3))
      ["w1"] 5 (by decide)).2.2.2.1 0 "w1" rfl⟩

lemma confirmLoop_expired_iff (statusResp : Nat → Option (List (Option SigStatus)))
    (height : Nat → Nat) (L : Nat) :
    ∀ fuel t, confirmLoop statusResp height L t fuel = some .expired ↔
      ∃ k, k < fuel ∧ (∀ j, j ≤ k → stepTerminal statusResp (t + j) = none) ∧
        (∀ j, j < k → height (t + j) ≤ L) ∧ height (t + k) > L := by
  intro fuel
  induction fuel with
  | zero =>
    intro t
    simp [confirmLoop]
  | succ f ih =>
    intro t
    rw [confirmLoop]
    cases hst : stepTerminal statusResp t with
    | some b =>
      cases b with
      | true =>
        simp only [iff_iff_implies_and_implies]
        constructor
        · intro hc; cases hc
        · rintro ⟨k, -, hterm, -, -⟩
          have := hterm 0 (Nat.zero_le _)
          rw [Nat.add_zero] at this
          rw [hst] at this
          cases this
      | false =>
        simp only [iff_iff_implies_and_implies]
        constructor
        · intro hc; cases hc
        · rintro ⟨k, -, hterm, -, -⟩
          have := hterm 0 (Nat.zero_le _)
          rw [Nat.add_zero] at this
          rw [hst] at this
          cases this
    | none =>
      by_cases hh : height t > L
      · simp only [hh, if_true]
        constructor
        · intro _
          exact ⟨0, Nat.succ_pos _,
            fun j hj => by
              interval_cases j
              simpa using hst,
            fun j hj => absurd hj (Nat.not_lt_zero _),
            by simpa using hh⟩
        · intro _; trivial
      · simp only [hh, if_false]
        rw [ih (t + 1)]
        constructor
        · rintro ⟨k, hk, hterm, hht, hexp⟩
          refine ⟨k + 1, by omega, ?_, ?_, by
            have : t + (k + 1) = t + 1 + k := by omega
            rw [this]; exact hexp⟩
          · intro j hj
            cases j with
            | zero => simpa using hst
            | succ j' =>
              have : t + (j' + 1) = t + 1 + j' := by omega
              rw [this]
              exact hterm j' (by omega)
          · intro j hj
            cases j with
            | zero => simpa using le_of_not_lt hh
            | succ j' =>
              have : t + (j' + 1) = t + 1 + j' := by omega
              rw [this]
              exact hht j' (by omega)
        · rintro ⟨k, hk, hterm, hht, hexp⟩
          cases k with
          | zero =>
            rw [Nat.add_zero] at hexp
            exact absurd hexp hh
          | succ k' =>
            refine ⟨k', by omega, ?_, ?_, by
              have : t + 1 + k' = t + (k' + 1) := by omega
              rw [this]; exact hexp⟩
            · intro j hj
              have : t + 1 + j = t + (j + 1) := by omega
              rw [this]
              exact hterm (j + 1) (by omega)
            · intro j hj
              have : t + 1 + j = t + (j + 1) := by omega
              rw [this]
              exact hht (j + 1) (by omega)

/-- C4: the send-and-confirm engine returns
`Err("Last valid blockheight exceeded!")` if and only if, at some polling
iteration, no `Confirmed`/`Finalized` signature status has been observed up
to and including that iteration, every earlier polled block height was at
most `last_valid_blockheight`, and the height polled at that iteration is
strictly greater than `last_valid_blockheight`; in particular a height equal
to the expiry height never ends the race. -/
theorem c4_expiry_iff (statusResp : Nat → Option (List (Option SigStatus)))
    (height : Nat → Nat) (last_valid_blockheight fuel : Nat) :
    send_and_confirm_transaction statusResp height last_valid_blockheight fuel
        = some (Except.error "Last valid blockheight exceeded!") ↔
      ∃ k, k < fuel ∧ (∀ j, j ≤ k → stepTerminal statusResp j = none) ∧
        (∀ j, j < k → height j ≤ last_valid_blockheight) ∧
        height k > last_valid_blockheight := by
  have hiff := confirmLoop_expired_iff statusResp height last_valid_blockheight
    fuel 0
  simp only [Nat.zero_add] at hiff
  rw [← hiff]
  unfold send_and_confirm_transaction
  cases ho : confirmLoop statusResp height last_valid_blockheight 0 fuel with
  | none => simp
  | some o =>
    cases o with
    | confirmedOk => simp
    | txFailed => simp
    | expired => simp

/-- Witness for C4: with every status poll erroring and the very first
polled height 11 against an expiry height of 10, the engine returns the
expiry failure. -/
theorem c4_witness :
    send_and_confirm_transaction (fun _ => none) (fun _ => 11) 10 1
      = some (Except.error "Last valid blockheight exceeded!") :=
  (c4_expiry_iff (fun _ => none) (fun _ => 11) 10 1).mpr
    ⟨0, Nat.one_pos, fun _ _ => rfl, fun j hj => absurd hj (Nat.not_lt_zero _),
      by decide⟩

/-- A status-response entry that can never terminate either polling loop:
absent, or with a confirmation status that is absent or `Processed`. -/
def entryNonTerminal : Option SigStatus → Prop
  | none => True
  | some s => s.confirmationStatus ≠ some .confirmed ∧
      s.confirmationStatus ≠ some .finalized

lemma pollStep_none_of_nonTerminal :
    ∀ l : List (Option SigStatus), (∀ e ∈ l, entryNonTerminal e) →
      pollStep l = none ∧ pollStepV1 l = false := by
  intro l
  induction l with
  | nil => intro _; exact ⟨rfl, rfl⟩
  | cons e rest ih =>
    intro hall
    have he := hall e (List.mem_cons_self _ _)
    have hrest := ih (fun x hx => hall x (List.mem_cons_of_mem _ hx))
    cases e with
    | none => simpa [pollStep, pollStepV1] using hrest
    | some s =>
      obtain ⟨h1, h2⟩ := he
      cases hcs : s.confirmationStatus with
      | none => simpa [pollStep, pollStepV1, hcs] using hrest
      | some tc =>
        cases tc with
        | processed => simpa [pollStep, pollStepV1, hcs] using hrest
        | confirmed => exact absurd hcs h1
        | finalized => exact absurd hcs h2

/-- C2 (amended): in the polling loop of `send_and_confirm_transaction`, a
`Confirmed`/`Finalized` status with an ok outcome ends the race with the
success result and with an error outcome ends it with the
`"Transaction Failed."` result, and a response containing only
absent/`Processed` statuses never ends the race in either polling loop; in
the polling loop of the single-transaction helper (`send_and_confirm`),
however, a `Confirmed`/`Finalized` status ends the race as landed (mapped to
success) without the transaction outcome being inspected. -/
theorem c2_terminal_status_routing
    (statusResp : Nat → Option (List (Option SigStatus)))
    (height : Nat → Nat) (last_valid_blockheight t fuel : Nat) :
    (stepTerminal statusResp t = some true →
      confirmLoop statusResp height last_valid_blockheight t (fuel + 1)
        = some .confirmedOk) ∧
    (stepTerminal statusResp t = some false →
      confirmLoop statusResp height last_valid_blockheight t (fuel + 1)
        = some .txFailed) ∧
    (stepTerminal statusResp 0 = some true →
      send_and_confirm_transaction statusResp height last_valid_blockheight
        (fuel + 1) = some (Except.ok ())) ∧
    (stepTerminal statusResp 0 = some false →
      send_and_confirm_transaction statusResp height last_valid_blockheight
        (fuel + 1) = some (Except.error "Transaction Failed.")) ∧
    (∀ l, (∀ e ∈ l, entryNonTerminal e) →
      pollStep l = none ∧ pollStepV1 l = false) ∧
    (∀ l, statusResp t = some l → pollStepV1 l = true →
      sacConfirmLoop statusResp height last_valid_blockheight t (fuel + 1)
        = some .landed) := by
  refine ⟨?_, ?_, ?_, ?_, pollStep_none_of_nonTerminal, ?_⟩
  · intro h
    rw [confirmLoop, h]
  · intro h
    rw [confirmLoop, h]
  · intro h
    unfold send_and_confirm_transaction
    rw [confirmLoop, h]
    rfl
  · intro h
    unfold send_and_confirm_transaction
    rw [confirmLoop, h]
    rfl
  · intro l hl hland
    rw [sacConfirmLoop, hl]
    simp [hland]

/-- Witness for C2 (amended): a first poll answering `Confirmed` with an ok
outcome makes the engine's polling loop end with the success outcome. -/
theorem c2_witness :
    confirmLoop (fun _ => some [some ⟨some .confirmed, true⟩]) (fun _ => 0)
      10 0 1 = some .confirmedOk :=
  (c2_terminal_status_routing (fun _ => some [some ⟨some .confirmed, true⟩])
    (fun _ => 0) 10 0 0).1 rfl

/-- Status oracle whose first (and every) poll reports a `Confirmed` status
with an ERROR transaction outcome. -/
def confirmedErrResp : Nat → Option (List (Option SigStatus)) :=
  fun _ => some [some ⟨some .confirmed, false⟩]

/-- Counterexample to C2 as stated: the claim extends the error-outcome →
failure rule to every polling loop, including the one of the
single-transaction helper `send_and_confirm`; but on a first poll reporting
`Confirmed` with an error outcome (`statusOk = false`, as `stepTerminal`
shows), the helper's loop ends the race as landed and the helper returns
the success result instead of a failure. -/
theorem c2_counterexample :
    stepTerminal confirmedErrResp 0 = some false ∧
    sacConfirmLoop confirmedErrResp (fun _ => 0) 10 0 1 = some .landed ∧
    send_and_confirm_race confirmedErrResp (fun _ => 0) 10 1
      = some (Except.ok ()) := by
  refine ⟨rfl, rfl, rfl⟩

lemma simLoop_simFailed_iff (sim : Nat → Option SimValue) :
    ∀ fuel t a, a ≤ SIMULATION_RETRIES →
      (simLoop sim t a fuel = some .simFailed ↔
        ∃ k, k < fuel ∧ (∀ j, j ≤ k → simExits sim (t + j) = none) ∧
          a + simFailCount sim t (k + 1) = SIMULATION_RETRIES + 1 ∧
          simFails sim (t + k) = true) := by
  intro fuel
  induction fuel with
  | zero =>
    intro t a _
    simp [simLoop]
  | succ f ih =>
    intro t a ha
    rw [simLoop]
    cases hex : simExits sim t with
    | some u =>
      constructor
      · intro hc; cases hc
      · rintro ⟨k, -, hterm, -, -⟩
        have := hterm 0 (Nat.zero_le _)
        rw [Nat.add_zero, hex] at this
        cases this
    | none =>
      by_cases hfail : simFails sim t = true
      · simp only [hfail, if_true]
        by_cases htop : a + 1 > SIMULATION_RETRIES
        · simp only [htop, if_true]
          constructor
          · intro _
            refine ⟨0, by omega, ?_, ?_, by simpa using hfail⟩
            · intro j hj
              interval_cases j
              simpa using hex
            · have h1 : simFailCount sim t 1 = 1 := by
                simp [simFailCount, hfail]
              simp only [Nat.zero_add, h1]
              simp [SIMULATION_RETRIES] at ha htop ⊢
              omega
          · intro _; trivial
        · simp only [htop, if_false]
          rw [ih (t + 1) (a + 1) (by omega)]
          have hstep : ∀ m, simFailCount sim t (m + 1)
              = 1 + simFailCount sim (t + 1) m := by
            intro m
            rw [simFailCount]
            simp [hfail]
          constructor
          · rintro ⟨k, hk, hterm, hcount, hfk⟩
            refine ⟨k + 1, by omega, ?_, ?_, ?_⟩
            · intro j hj
              cases j with
              | zero => simpa using hex
              | succ j' =>
                have e : t + (j' + 1) = t + 1 + j' := by omega
                rw [e]
                exact hterm j' (by omega)
            · have := hstep (k + 1)
              omega
            · have e : t + (k + 1) = t + 1 + k := by omega
              rw [e]
              exact hfk
          · rintro ⟨k, hk, hterm, hcount, hfk⟩
            cases k with
            | zero =>
              have h1 : simFailCount sim t 1 = 1 := by
                simp [simFailCount, hfail]
              rw [Nat.zero_add, h1] at hcount
              omega
            | succ k' =>
              refine ⟨k', by omega, ?_, ?_, ?_⟩
              · intro j hj
                have e : t + 1 + j = t + (j + 1) := by omega
                rw [e]
                exact hterm (j + 1) (by omega)
              · have := hstep (k' + 1)
                omega
              · have e : t + 1 + k' = t + (k' + 1) := by omega
                rw [e]
                exact hfk
      · have hfail' : simFails sim t = false := by simpa using hfail
        simp only [hfail', Bool.false_eq_true, if_false]
        have hle : ¬ a > SIMULATION_RETRIES := by omega
        simp only [hle, if_false]
        rw [ih (t + 1) a ha]
        have hstep : ∀ m, simFailCount sim t (m + 1)
            = simFailCount sim (t + 1) m := by
          intro m
          rw [simFailCount]
          simp [hfail']
        constructor
        · rintro ⟨k, hk, hterm, hcount, hfk⟩
          refine ⟨k + 1, by omega, ?_, ?_, ?_⟩
          · intro j hj
            cases j with
            | zero => simpa using hex
            | succ j' =>
              have e : t + (j' + 1) = t + 1 + j' := by omega
              rw [e]
              exact hterm j' (by omega)
          · have := hstep (k + 1)
            omega
          · have e : t + (k + 1) = t + 1 + k := by omega
            rw [e]
            exact hfk
        · rintro ⟨k, hk, hterm, hcount, hfk⟩
          cases k with
          | zero =>
            rw [Nat.add_zero] at hfk
            rw [hfk] at hfail'
            cases hfail'
          | succ k' =>
            refine ⟨k', by omega, ?_, ?_, ?_⟩
            · intro j hj
              have e : t + 1 + j = t + (j + 1) := by omega
              rw [e]
              exact hterm (j + 1) (by omega)
            · have := hstep (k' + 1)
              omega
            · have e : t + 1 + k' = t + (k' + 1) := by omega
              rw [e]
              exact hfk

/-- C8 (amended): starting from at most `SIMULATION_RETRIES` recorded
failures, the helper's retry loop (i) exits immediately with `proceed` on a
successful simulation that reports a units-consumed value, (ii) treats a
successful simulation without a units-consumed value as neither an exit nor
a failed attempt, merely looping on, and (iii) returns the `"Sim failed"`
outcome exactly when, with no exiting simulation up to that point, the
running count of failed simulation attempts (error responses or RPC errors)
first exceeds `SIMULATION_RETRIES` (4). -/
theorem c8_sim_retry_bound (sim : Nat → Option SimValue) (t a fuel : Nat)
    (ha : a ≤ SIMULATION_RETRIES) :
    (∀ v u, sim t = some v → v.err = false → v.unitsConsumed = some u →
      simLoop sim t a (fuel + 1) = some (.proceed u)) ∧
    (∀ v, sim t = some v → v.err = false → v.unitsConsumed = none →
      simFails sim t = false ∧
      simLoop sim t a (fuel + 1) = simLoop sim (t + 1) a fuel) ∧
    (simLoop sim t a fuel = some .simFailed ↔
      ∃ k, k < fuel ∧ (∀ j, j ≤ k → simExits sim (t + j) = none) ∧
        a + simFailCount sim t (k + 1) = SIMULATION_RETRIES + 1 ∧
        simFails sim (t + k) = true) := by
  refine ⟨?_, ?_, simLoop_simFailed_iff sim fuel t a ha⟩
  · intro v u hv herr hu
    rw [simLoop]
    have : simExits sim t = some u := by
      simp [simExits, hv, herr, hu]
    rw [this]
  · intro v hv herr hu
    have hnf : simFails sim t = false := by
      simp [simFails, hv, herr]
    have hne : simExits sim t = none := by
      simp [simExits, hv, herr, hu]
    refine ⟨hnf, ?_⟩
    rw [simLoop, hne]
    simp only [hnf, Bool.false_eq_true, if_false]
    have : ¬ a > SIMULATION_RETRIES := by omega
    simp only [this, if_false]

/-- Simulation oracle whose every call succeeds but reports no
units-consumed value. -/
def simNoUnits : Nat → Option SimValue := fun _ => some ⟨false, none⟩

/-- Counterexample to C8 as stated: the claim says any successful
simulation before the retry bound exits the loop and proceeds to
submission; under an oracle whose very first response is successful (no
simulation error, so not a failed attempt) but carries no units-consumed
value, the loop has neither proceeded nor reported failure after 10
iterations — the successful simulation did not exit the retry loop. -/
theorem c8_counterexample :
    simFails simNoUnits 0 = false ∧
    simLoop simNoUnits 0 0 10 = none := by
  refine ⟨rfl, rfl⟩

/-- Simulation oracle whose every call is an RPC error. -/
def simAlwaysErr : Nat → Option SimValue := fun _ => none

/-- Witness for C8 (amended): with every simulation call failing, the loop
reports `Sim failed` once the fifth failed attempt pushes the count past
`SIMULATION_RETRIES = 4`. -/
theorem c8_witness : simLoop simAlwaysErr 0 0 5 = some .simFailed :=
  ((c8_sim_retry_bound simAlwaysErr 0 0 5 (by decide)).2.2).mpr
    ⟨4, by decide, fun _ _ => rfl, by decide, rfl⟩
